import Mathlib

/-!
Verification development for the agent-snapshot record/replay engine:
the snapshot normalizer (`src/multimodal/tarko/agent-snapshot/src/utils/snapshot-normalizer.ts`),
the orchestrator (`src/multimodal/tarko/agent-snapshot/src/agent-snapshot.ts`), and the
generic hook lifecycle manager (`AgentHookBase`).

The JavaScript code is shallowly embedded: JSON-like values become an inductive
tree type (`JTree`, for inputs without shared references) and a heap-based
representation (`HVal`/`HObj`, for object graphs with sharing and cycles);
the regular expressions appearing in the default normalizer configuration are
embedded semantically (each default pattern is either a case-insensitive
suffix test or a case-insensitive substring test); JavaScript `undefined`
returned by `normalizeField` becomes `Option.none`.
-/

set_option maxHeartbeats 1000000

namespace AgentSnapshotSpec

/-! ## JSON-like tree values

`JTree` models a JavaScript value with no shared object references.
JavaScript numbers are modelled as integers (no claim in scope depends on
floating point). The mutual presentation (`JTreeList` for arrays,
`JFieldList` for the key/value entries of an object, in insertion order as
`Object.entries` yields them) keeps all recursion structural. -/

mutual

inductive JTree where
  | null : JTree
  | bool (b : Bool) : JTree
  | num (n : Int) : JTree
  | str (s : String) : JTree
  | arr (items : JTreeList) : JTree
  | obj (fields : JFieldList) : JTree
deriving DecidableEq

inductive JTreeList where
  | nil : JTreeList
  | cons (head : JTree) (tail : JTreeList) : JTreeList
deriving DecidableEq

inductive JFieldList where
  | nil : JFieldList
  | cons (key : String) (val : JTree) (tail : JFieldList) : JFieldList
deriving DecidableEq

end

/-! ## Pattern matching

The source stores patterns as `string | RegExp`. A string pattern is matched
by exact equality against the key or the path. Every `RegExp` appearing in
`DEFAULT_CONFIG` is either an anchored case-insensitive suffix test
(`/id$/i`) or an unanchored case-insensitive substring test (`/timestamp/i`
etc.); `Pat` embeds these three semantic forms. -/

/-- Lowercase a string character by character (models the `i` regex flag). -/
def lowerStr (s : String) : String :=
  String.mk (s.toList.map Char.toLower)

/-- Whether character list `hay` begins with `needle`. -/
def charListStartsWith : List Char → List Char → Bool
  | [], _ => true
  | _ :: _, [] => false
  | c :: cs, d :: ds => c == d && charListStartsWith cs ds

/-- Whether `needle` occurs contiguously inside `hay`. -/
def charListHasSub (needle : List Char) : List Char → Bool
  | [] => charListStartsWith needle []
  | d :: ds => charListStartsWith needle (d :: ds) || charListHasSub needle ds

/-- Case-insensitive substring test (models an unanchored `/x/i` regex). -/
def containsCI (needle s : String) : Bool :=
  charListHasSub (lowerStr needle).toList (lowerStr s).toList

/-- Case-insensitive suffix test (models an end-anchored `/x$/i` regex). -/
def endsWithCI (needle s : String) : Bool :=
  charListStartsWith (lowerStr needle).toList.reverse (lowerStr s).toList.reverse

/-- Embedded pattern: the semantic forms taken by the patterns the
normalizer is configured with. -/
inductive Pat where
  | suffixCI (s : String) : Pat
  | substrCI (s : String) : Pat
  | exact (s : String) : Pat
deriving DecidableEq

/-- Embeds `matchesPattern(pattern, key, path)`: a regex is tested against
the key and the full path; a string pattern requires exact equality with the
key or the path. -/
def patternMatches (p : Pat) (key path : String) : Bool :=
  match p with
  | .suffixCI s => endsWithCI s key || endsWithCI s path
  | .substrCI s => containsCI s key || containsCI s path
  | .exact s => key == s || path == s

/-! ## Normalizer configuration -/

/-- One entry of `fieldsToNormalize`. `replacement` is optional in the
source (`replacement?: unknown`), hence `Option`; `deep` is carried by the
source type but never read by the normalization logic. -/
structure NormRule where
  pattern : Pat
  replacement : Option JTree
  deep : Bool

/-- One entry of `customNormalizers`: a pattern and a normalizer function;
a `none` result models the function returning `undefined`. -/
structure CustomNorm where
  pattern : Pat
  normalizer : JTree → String → Option JTree

/-- The resolved configuration held by an `AgentSnapshotNormalizer`
(the source's `Required<AgentNormalizerConfig>`). -/
structure NormConfig where
  fieldsToNormalize : List NormRule
  fieldsToIgnore : List Pat
  customNormalizers : List CustomNorm

/-- The caller-supplied configuration (`AgentNormalizerConfig`): every field
is optional. -/
structure UserNormalizerCfg where
  fieldsToNormalize : Option (List NormRule) := none
  fieldsToIgnore : Option (List Pat) := none
  customNormalizers : Option (List CustomNorm) := none

/-- Embeds `DEFAULT_CONFIG` of `snapshot-normalizer.ts`: the twelve built-in
rules in source order, no ignore patterns, no custom normalizers. -/
def DEFAULT_CONFIG : NormConfig where
  fieldsToNormalize := [
    ⟨.suffixCI "id", some (.str "<<ID>>"), true⟩,
    ⟨.substrCI "timestamp", some (.str "<<TIMESTAMP>>"), true⟩,
    ⟨.substrCI "created", some (.str "<<TIMESTAMP>>"), true⟩,
    ⟨.substrCI "startTime", some (.str "<<TIMESTAMP>>"), true⟩,
    ⟨.substrCI "elapsedMs", some (.str "<<ELAPSED_MS>>"), true⟩,
    ⟨.substrCI "ttftMs", some (.str "<<TTFT_MS>>"), true⟩,
    ⟨.substrCI "ttltMs", some (.str "<<TTLT_MS>>"), true⟩,
    ⟨.substrCI "executionTime", some (.str "<<EXECUTION_TIME>>"), true⟩,
    ⟨.substrCI "toolCallId", some (.str "<<TOOL_CALL_ID>>"), true⟩,
    ⟨.substrCI "sessionId", some (.str "<<SESSION_ID>>"), true⟩,
    ⟨.substrCI "messageId", some (.str "<<MESSAGE_ID>>"), true⟩,
    ⟨.substrCI "image_url", some (.str "<<IMAGE_URL>>"), true⟩]
  fieldsToIgnore := []
  customNormalizers := []

/-- Embeds the `AgentSnapshotNormalizer` constructor: each list of the
resolved configuration is the default list followed by the caller-supplied
list (`[...DEFAULT_CONFIG.x, ...(config?.x ?? [])]`). -/
def mkNormalizer (config : Option UserNormalizerCfg) : NormConfig where
  fieldsToNormalize :=
    DEFAULT_CONFIG.fieldsToNormalize ++ ((config.bind (·.fieldsToNormalize)).getD [])
  fieldsToIgnore :=
    DEFAULT_CONFIG.fieldsToIgnore ++ ((config.bind (·.fieldsToIgnore)).getD [])
  customNormalizers :=
    DEFAULT_CONFIG.customNormalizers ++ ((config.bind (·.customNormalizers)).getD [])

/-- The default normalizer (`new AgentSnapshotNormalizer()`). -/
def defaultNormalizer : NormConfig := mkNormalizer none

/-- Embeds `shouldIgnoreField(key, path)`: some ignore pattern matches the
key or the path. -/
def shouldIgnoreField (cfg : NormConfig) (key path : String) : Bool :=
  cfg.fieldsToIgnore.any (fun p => patternMatches p key path)

/-- Embeds `normalizeField(key, value, path)`: the first matching custom
normalizer is applied first (its result is returned even when it is
`undefined`); otherwise the first matching `fieldsToNormalize` rule returns
its `replacement`; otherwise `undefined` (`none`). -/
def normalizeFieldT (cfg : NormConfig) (key : String) (value : JTree) (path : String) :
    Option JTree :=
  match cfg.customNormalizers.find? (fun cn => patternMatches cn.pattern key path) with
  | some cn => cn.normalizer value path
  | none =>
    match cfg.fieldsToNormalize.find? (fun r => patternMatches r.pattern key path) with
    | some r => r.replacement
    | none => none

/-- The path of a member `key` below `path`: `path ? path + "." + key : key`. -/
def childPath (path key : String) : String :=
  if path = "" then key else path ++ "." ++ key

/-- The path of an array item: `path + "[" + index + "]"`. -/
def itemPath (path : String) (i : Nat) : String :=
  path ++ "[" ++ toString i ++ "]"

/-! ## normalize over tree values

`normalizeT` embeds `AgentSnapshotNormalizer.normalize` for inputs without
shared object references (each object/array reference occurs once, so the
`seenObjects` set never fires and is omitted here; the heap model below
carries it explicitly). Primitives and null pass through, arrays recurse
with index-suffixed paths, object members are dropped when ignored,
replaced verbatim when `normalizeField` matches, and recursed into
otherwise. -/

mutual

def normalizeT (cfg : NormConfig) (path : String) : JTree → JTree
  | .null => .null
  | .bool b => .bool b
  | .num n => .num n
  | .str s => .str s
  | .arr items => .arr (normArrT cfg path 0 items)
  | .obj fields => .obj (normFieldsT cfg path fields)

def normArrT (cfg : NormConfig) (path : String) (i : Nat) : JTreeList → JTreeList
  | .nil => .nil
  | .cons x rest =>
    .cons (normalizeT cfg (itemPath path i) x) (normArrT cfg path (i + 1) rest)

def normFieldsT (cfg : NormConfig) (path : String) : JFieldList → JFieldList
  | .nil => .nil
  | .cons k v rest =>
    let cp := childPath path k
    if shouldIgnoreField cfg k cp then normFieldsT cfg path rest
    else
      match normalizeFieldT cfg k v cp with
      | some r => .cons k r (normFieldsT cfg path rest)
      | none => .cons k (normalizeT cfg cp v) (normFieldsT cfg path rest)

end

/-- The scenario input `{sessionId: "abc123", value: 5}`. -/
def sessionInput : JTree :=
  .obj (.cons "sessionId" (.str "abc123") (.cons "value" (.num 5) .nil))

/-- A caller configuration that tries (and, per C6, fails) to override the
default rule for `sessionId` by appending a rule of its own. -/
def overrideAttemptCfg : UserNormalizerCfg where
  fieldsToNormalize := some [⟨.substrCI "sessionId", some (.str "<<CUSTOM>>"), true⟩]

/-- A configuration whose only rule matches the key `foo` but omits the
replacement value. -/
def undefReplacementCfg : NormConfig where
  fieldsToNormalize := [⟨.exact "foo", none, true⟩]
  fieldsToIgnore := []
  customNormalizers := []

/-! ## Snapshot store and orchestrator (`agent-snapshot.ts`)

The filesystem is abstracted to the facts `countLoops` consumes: whether the
snapshot root exists and the directory listing (name plus `isDirectory()`
bit per entry). `parseIntJS` embeds JavaScript `parseInt(s, 10)`; `sortJS`
embeds `Array.prototype.sort` (stable, as ECMAScript requires) with the
comparator `(a, b) => numA - numB`, where a `NaN` comparator value is
treated as zero per the `CompareArrayElements` specification step. -/

/-- Prefix test on strings (the semantics of `name.startsWith('loop-')`). -/
def jsStartsWith (pre s : String) : Bool :=
  charListStartsWith pre.toList s.toList

/-- Split a character list at every occurrence of `sep` (the semantics of
`String.prototype.split` with a single-character separator). -/
def splitChar (sep : Char) : List Char → List (List Char)
  | [] => [[]]
  | c :: cs =>
    if c == sep then [] :: splitChar sep cs
    else
      match splitChar sep cs with
      | [] => [[c]]
      | g :: gs => (c :: g) :: gs

/-- Embeds `parseInt(s, 10)`: skip leading whitespace, optional sign,
then the maximal run of leading decimal digits; no digits means `NaN`
(modelled as `none`). -/
def parseIntJS (s : String) : Option Int :=
  let cs := s.toList.dropWhile (fun c => c.isWhitespace)
  let signed : Bool × List Char :=
    match cs with
    | '-' :: rest => (true, rest)
    | '+' :: rest => (false, rest)
    | _ => (false, cs)
  let digits := signed.2.takeWhile (fun c => c.isDigit)
  if digits.isEmpty then none
  else
    let n : Nat := digits.foldl (fun acc c => acc * 10 + (c.toNat - '0'.toNat)) 0
    some (if signed.1 then -(n : Int) else (n : Int))

/-- The numeric sort key of a loop directory name:
`parseInt(name.split('-')[1], 10)` (`none` models `NaN`, including the case
where the name has no `-` so index 1 is `undefined`). -/
def loopNumKey (name : String) : Option Int :=
  match (splitChar '-' name.toList).get? 1 with
  | some part => parseIntJS (String.mk part)
  | none => none

/-- The comparator `(a, b) => numA - numB` as a strict "comes before" test:
true iff the comparator value is negative. When either key is `NaN` the
comparator value is `NaN`, which the sort treats as zero (not negative). -/
def jsCmpLt (a b : String) : Bool :=
  match loopNumKey a, loopNumKey b with
  | some x, some y => decide (x < y)
  | _, _ => false

/-- Stable insertion into a sorted list: `x` is placed before the first
element not strictly below it, so elements comparing equal keep their
original relative order. -/
def insertSorted (lt : String → String → Bool) (x : String) : List String → List String
  | [] => [x]
  | y :: ys => if lt y x then y :: insertSorted lt x ys else x :: y :: ys

/-- Stable sort by repeated insertion — a model of `Array.prototype.sort`,
which ECMAScript requires to be stable and which agrees with any stable
sort whenever the comparator is consistent. -/
def sortJS (lt : String → String → Bool) : List String → List String
  | [] => []
  | x :: xs => insertSorted lt x (sortJS lt xs)

/-- One entry of the snapshot root directory: its name and whether
`fs.statSync(...).isDirectory()` holds. -/
structure FsEntry where
  name : String
  isDir : Bool
deriving DecidableEq

/-- The filesystem facts visible to `countLoops`/`snapshotExists`. -/
structure SnapshotFS where
  rootExists : Bool
  entries : List FsEntry
deriving DecidableEq

/-- Embeds the enumeration inside `countLoops`: directory entries whose name
starts with `loop-` and which are directories, sorted by the parsed integer
comparator. -/
def loopDirs (fsx : SnapshotFS) : List String :=
  sortJS jsCmpLt
    ((fsx.entries.filter (fun e => jsStartsWith "loop-" e.name && e.isDir)).map (·.name))

/-- Embeds `AgentSnapshot.countLoops`: `0` when the snapshot root does not
exist, else the number of enumerated loop directories. -/
def countLoops (fsx : SnapshotFS) : Nat :=
  if fsx.rootExists then (loopDirs fsx).length else 0

/-- Embeds `AgentSnapshot.snapshotExists`: the root directory exists and the
loop count is positive. -/
def snapshotExists (fsx : SnapshotFS) : Bool :=
  fsx.rootExists && decide (0 < countLoops fsx)

/-- The three resolved verification booleans. -/
structure VerifSettings where
  verifyLLMRequests : Bool
  verifyEventStreams : Bool
  verifyToolCalls : Bool
deriving DecidableEq

/-- Caller-level verification overrides (every field optional). -/
structure VerifOverrides where
  verifyLLMRequests : Option Bool := none
  verifyEventStreams : Option Bool := none
  verifyToolCalls : Option Bool := none
deriving DecidableEq

/-- The orchestrator options (`AgentSnapshotOptions`), restricted to the
fields `test` consults. -/
structure SnapOptions where
  snapshotPath : String
  updateSnapshots : Option Bool := none
  verification : Option VerifOverrides := none
deriving DecidableEq

/-- The per-call test configuration (`TestRunConfig`), restricted to the
fields `test` consults. -/
structure TestRunCfg where
  updateSnapshots : Option Bool := none
  verification : Option VerifOverrides := none
deriving DecidableEq

/-- Embeds `mergeVerificationSettings`: per-call override, else
per-orchestrator option, else `true`. -/
def mergeVerificationSettings (opts : SnapOptions) (cv : Option VerifOverrides) :
    VerifSettings where
  verifyLLMRequests :=
    ((cv.bind (·.verifyLLMRequests)).orElse
      (fun _ => (opts.verification.bind (·.verifyLLMRequests)))).getD true
  verifyEventStreams :=
    ((cv.bind (·.verifyEventStreams)).orElse
      (fun _ => (opts.verification.bind (·.verifyEventStreams)))).getD true
  verifyToolCalls :=
    ((cv.bind (·.verifyToolCalls)).orElse
      (fun _ => (opts.verification.bind (·.verifyToolCalls)))).getD true

/-- The environment a `test` run unfolds in: the snapshot filesystem, the
error recorded by the replay hook during `setup` (polled via `hasError`),
an exception thrown by `agent.run` itself, the hook error polled after the
run, and the loop count the runtime reports having executed. -/
structure TestEnv where
  fsx : SnapshotFS
  setupError : Option String := none
  runThrows : Option String := none
  runError : Option String := none
  executedLoops : Nat
deriving DecidableEq

/-- Observable steps `test` performs on the runtime, in order. -/
inductive TestStep where
  | hookSetup
  | setClient
  | setReplay
  | run
  | unhook
deriving DecidableEq

/-- The outcome of a `test` call. -/
inductive TestOutcome where
  | notFound (msg : String)
  | hookError (msg : String)
  | runFailure (msg : String)
  | loopMismatch (executed recorded : Nat)
  | success (loopCount : Nat) (updateSnapshots : Bool) (verification : VerifSettings)
deriving DecidableEq

/-- The message of the snapshot-not-found error thrown by `test`. -/
def snapshotNotFoundMsg (p : String) : String :=
  "Snapshot not found at " ++ p ++ ". Generate it first using .generate()"

/-- Embeds `AgentSnapshot.test`: fail with the not-found error when the
snapshot does not exist (before any hook is constructed or installed);
otherwise resolve the update-mode flag and verification settings, count the
recorded loops, set up the replay hook, run, re-raise any hook error, and
assert that the executed loop count equals the recorded one. The second
component is the ordered list of steps performed on the runtime; the
`finally` block's `unhookAgent` appears on every path that set the hook up. -/
def testModel (opts : SnapOptions) (env : TestEnv) (cfg : Option TestRunCfg) :
    TestOutcome × List TestStep :=
  if snapshotExists env.fsx = false then
    (.notFound (snapshotNotFoundMsg opts.snapshotPath), [])
  else
    let updateSnapshots :=
      ((cfg.bind (·.updateSnapshots)).orElse (fun _ => opts.updateSnapshots)).getD false
    let verification := mergeVerificationSettings opts (cfg.bind (·.verification))
    let loopCount := countLoops env.fsx
    match env.setupError with
    | some e => (.hookError e, [.hookSetup, .unhook])
    | none =>
      match env.runThrows with
      | some e => (.runFailure e, [.hookSetup, .setClient, .setReplay, .run, .unhook])
      | none =>
        match env.runError with
        | some e => (.hookError e, [.hookSetup, .setClient, .setReplay, .run, .unhook])
        | none =>
          if env.executedLoops ≠ loopCount then
            (.loopMismatch env.executedLoops loopCount,
              [.hookSetup, .setClient, .setReplay, .run, .unhook])
          else
            (.success env.executedLoops updateSnapshots verification,
              [.hookSetup, .setClient, .setReplay, .run, .unhook])

/-! ## Heap model of normalize: object graphs with sharing and cycles

`HVal` is a JavaScript value whose objects live on an explicit heap
(`List HObj`, addressed by position), so shared references and cycles are
representable; the `seenObjects` WeakSet becomes the list of addresses
already added during the current traversal. The JavaScript recursion is
mirrored with a structural fuel argument; `normV cfg heap fuel seen path v`
returns `none` exactly when `fuel` runs out, so "normalize terminates on
this input" is rendered as "some fuel makes the result `some`". The reset
of the seen set is inside `normV`, exactly as in the source: every call
whose `path` is the empty string starts from an empty seen set. -/

/-- A JavaScript value: a primitive or a reference to a heap object. -/
inductive HVal where
  | null : HVal
  | bool (b : Bool) : HVal
  | num (n : Int) : HVal
  | str (s : String) : HVal
  | ref (a : Nat) : HVal
deriving DecidableEq

/-- A heap object: an array of values or a keyed object. -/
inductive HObj where
  | arr (items : List HVal) : HObj
  | obj (fields : List (String × HVal)) : HObj
deriving DecidableEq

/-- A custom normalizer over heap values (its result is an
already-normalized output value). -/
structure HCustomNorm where
  pattern : Pat
  normalizer : HVal → String → Option JTree

/-- The normalizer configuration, typed for heap values. -/
structure HCfg where
  fieldsToNormalize : List NormRule
  fieldsToIgnore : List Pat
  customNormalizers : List HCustomNorm

/-- The default configuration over heap values (same twelve rules). -/
def defaultHCfg : HCfg :=
  ⟨DEFAULT_CONFIG.fieldsToNormalize, [], []⟩

/-- `shouldIgnoreField` over the heap-value configuration. -/
def shouldIgnoreH (cfg : HCfg) (key path : String) : Bool :=
  cfg.fieldsToIgnore.any (fun p => patternMatches p key path)

/-- `normalizeField` over heap values. -/
def normalizeFieldH (cfg : HCfg) (key : String) (value : HVal) (path : String) :
    Option JTree :=
  match cfg.customNormalizers.find? (fun cn => patternMatches cn.pattern key path) with
  | some cn => cn.normalizer value path
  | none =>
    match cfg.fieldsToNormalize.find? (fun r => patternMatches r.pattern key path) with
    | some r => r.replacement
    | none => none

mutual

/-- Embeds `normalize` on heap values. A call with `path = ""` resets the
seen set (as the source does); a reference already seen yields the
`[Circular]` marker; a fresh reference is added to the seen set and its
object is traversed. The seen set is threaded left to right, as mutation
of the instance-level WeakSet is. -/
def normV (cfg : HCfg) (heap : List HObj) :
    Nat → List Nat → String → HVal → Option (JTree × List Nat)
  | 0, _, _, _ => none
  | fuel + 1, seen, path, v =>
    let seen0 := if path = "" then [] else seen
    match v with
    | .null => some (.null, seen0)
    | .bool b => some (.bool b, seen0)
    | .num n => some (.num n, seen0)
    | .str s => some (.str s, seen0)
    | .ref a =>
      if a ∈ seen0 then some (.str "[Circular]", seen0)
      else
        match heap[a]? with
        | none => some (.null, seen0)
        | some o => normO cfg heap fuel (a :: seen0) path o

/-- Traversal of one heap object (the array/object branches of
`normalize`). -/
def normO (cfg : HCfg) (heap : List HObj) :
    Nat → List Nat → String → HObj → Option (JTree × List Nat)
  | 0, _, _, _ => none
  | fuel + 1, seen, path, o =>
    match o with
    | .arr items =>
      match normArr cfg heap fuel seen path 0 items with
      | none => none
      | some (ts, s') => some (.arr ts, s')
    | .obj fields =>
      match normFields cfg heap fuel seen path fields with
      | none => none
      | some (fs, s') => some (.obj fs, s')

/-- The array map of `normalize`, with index-suffixed paths. -/
def normArr (cfg : HCfg) (heap : List HObj) :
    Nat → List Nat → String → Nat → List HVal → Option (JTreeList × List Nat)
  | 0, _, _, _, _ => none
  | fuel + 1, seen, path, i, items =>
    match items with
    | [] => some (.nil, seen)
    | x :: rest =>
      match normV cfg heap fuel seen (itemPath path i) x with
      | none => none
      | some (t, s1) =>
        match normArr cfg heap fuel s1 path (i + 1) rest with
        | none => none
        | some (ts, s2) => some (.cons t ts, s2)

/-- The object-member loop of `normalize`: drop ignored members, substitute
a matched member verbatim (its value is never traversed, so its references
are not added to the seen set), and recurse otherwise. -/
def normFields (cfg : HCfg) (heap : List HObj) :
    Nat → List Nat → String → List (String × HVal) → Option (JFieldList × List Nat)
  | 0, _, _, _ => none
  | fuel + 1, seen, path, fields =>
    match fields with
    | [] => some (.nil, seen)
    | (k, v) :: rest =>
      if shouldIgnoreH cfg k (childPath path k) then
        normFields cfg heap fuel seen path rest
      else
        match normalizeFieldH cfg k v (childPath path k) with
        | some r =>
          match normFields cfg heap fuel seen path rest with
          | none => none
          | some (fs, s') => some (.cons k r fs, s')
        | none =>
          match normV cfg heap fuel seen (childPath path k) v with
          | none => none
          | some (t, s1) =>
            match normFields cfg heap fuel s1 path rest with
            | none => none
            | some (fs, s2) => some (.cons k t fs, s2)

end

/-- Termination of `normalize` on a given input: some fuel suffices. -/
def normTerminates (cfg : HCfg) (heap : List HObj) (state : List Nat)
    (path : String) (v : HVal) : Prop :=
  ∃ fuel, (normV cfg heap fuel state path v).isSome

/-- Whether the top-level value avoids the empty-string-key reset: if it is
a reference to a keyed object, none of that object's direct keys is the
empty string. -/
def topKeysOk (heap : List HObj) (v : HVal) : Bool :=
  match v with
  | .ref a =>
    match heap[a]? with
    | some (.obj fields) => fields.all (fun kv => !(kv.1 = ""))
    | _ => true
  | _ => true

/-- The number of heap addresses not yet in the seen set. -/
def unseenCount (heap : List HObj) (seen : List Nat) : Nat :=
  ((Finset.range heap.length).filter (fun a => a ∉ seen)).card

/-- Well-formedness of a seen set: no duplicates, all addresses valid. -/
def seenInv (heap : List HObj) (seen : List Nat) : Prop :=
  seen.Nodup ∧ ∀ a ∈ seen, a < heap.length

/-- The one-object heap whose object holds itself under the empty-string
key: `a = {'': a}`. -/
def emptyKeyHeap : List HObj :=
  [.obj [("", .ref 0)]]

/-- The one-object heap whose object holds itself under the key `self`:
`a = {self: a}`. -/
def selfHeap : List HObj :=
  [.obj [("self", .ref 0)]]

/-- An acyclic heap with a shared reference: the top object holds the same
second object under both of its keys (`o = {x: 5}; v = {a: o, b: o}`). -/
def sharedHeap : List HObj :=
  [.obj [("a", .ref 1), ("b", .ref 1)], .obj [("x", .num 5)]]

/-! ## Hook base (`AgentHookBase`)

The error-isolation state is the `lastError` field; an instrumented
callback's execution is abstracted to its outcome (`Except.ok` for normal
return, `Except.error` for a throw). The install/uninstall lifecycle is
modelled over an abstract callback-set type `γ`: `instr` stands for the
instrumented callback set the hook writes onto the agent, and
`originalHooks` is the backup map (`none` models the empty object the field
is initialized and reset to). -/

/-- The hook error state: `lastError` starts as `null` (`none`). -/
structure HookErrSt where
  lastError : Option String
deriving DecidableEq

/-- The state of a freshly constructed hook. -/
def initialHookSt : HookErrSt := ⟨none⟩

/-- Embeds `safeHook`: awaits the callback; a normal return passes its
value through with the state untouched; a throw is caught (never
re-thrown — the function is total and returns `none` instead), and the
error is stored into `lastError`, overwriting whatever was there. -/
def safeHook (st : HookErrSt) (outcome : Except String Unit) :
    Option Unit × HookErrSt :=
  match outcome with
  | .ok v => (some v, st)
  | .error e => (none, ⟨some e⟩)

/-- Run a sequence of instrumented-callback executions through `safeHook`,
threading the error state. -/
def runHooks (st : HookErrSt) : List (Except String Unit) → HookErrSt
  | [] => st
  | o :: os => runHooks (safeHook st o).2 os

/-- Embeds `hasError`. -/
def hasError (st : HookErrSt) : Bool :=
  st.lastError.isSome

/-- Embeds `getLastError`. -/
def getLastError (st : HookErrSt) : Option String :=
  st.lastError

/-- The errors, in execution order, of a sequence of callback outcomes. -/
def errsOf (outcomes : List (Except String Unit)) : List String :=
  outcomes.filterMap (fun o => match o with | .error e => some e | .ok _ => none)

/-- The install/uninstall state of a hook over the abstract callback-set
type `γ`. -/
structure HookLifecycle (γ : Type) where
  isHooked : Bool
  originalHooks : Option γ
deriving DecidableEq

/-- Log messages emitted by the lifecycle operations. -/
inductive HookLog where
  | warnAlreadyHooked
  | debugHooked
  | debugUnhooked
deriving DecidableEq

/-- Embeds `hookAgent`: when already hooked, warn and change nothing;
otherwise back up the agent's callbacks and overwrite them with the
instrumented set. Returns the agent's callback set, the hook state, and
the emitted log messages. -/
def hookAgent {γ : Type} (instr agentCbs : γ) (h : HookLifecycle γ) :
    γ × HookLifecycle γ × List HookLog :=
  if h.isHooked then (agentCbs, h, [.warnAlreadyHooked])
  else (instr, ⟨true, some agentCbs⟩, [.debugHooked])

/-- Embeds `unhookAgent`: when not hooked, return silently (no log);
otherwise restore the backed-up callbacks onto the agent and clear the
internal state. -/
def unhookAgent {γ : Type} (agentCbs : γ) (h : HookLifecycle γ) :
    γ × HookLifecycle γ × List HookLog :=
  if h.isHooked = false then (agentCbs, h, [])
  else (h.originalHooks.getD agentCbs, ⟨false, none⟩, [.debugUnhooked])

/-! ## Claim C1 — normalizing the sessionId scenario -/

/-- C1 counterexample: with the default rules, normalizing
`{sessionId: "abc123", value: 5}` does NOT yield
`{sessionId: "<<SESSION_ID>>", value: 5}` — the claim fails on this input,
because the earlier `/id$/i` rule also matches the key `sessionId`. -/
theorem c1_counterexample :
    normalizeT defaultNormalizer "" sessionInput ≠
      .obj (.cons "sessionId" (.str "<<SESSION_ID>>") (.cons "value" (.num 5) .nil)) := by
  decide

/-- C1 (amended): with the default rules, normalizing
`{sessionId: "abc123", value: 5}` yields `{sessionId: "<<ID>>", value: 5}`:
the first matching default rule is `/id$/i` (which matches the suffix of
`sessionId`), so the sentinel substituted is `<<ID>>`, and the `value`
field passes through unchanged. -/
theorem c1_amended :
    normalizeT defaultNormalizer "" sessionInput =
      .obj (.cons "sessionId" (.str "<<ID>>") (.cons "value" (.num 5) .nil)) := by
  decide

/-! ## Claim C6 — rule precedence -/

/-- C6: (a) the resolved `fieldsToNormalize` list is the built-in defaults
followed by the caller-supplied rules; (b) when a custom normalizer is the
first to match, `normalizeField` returns its result (custom normalizers are
tested before all rules); (c) when no custom normalizer matches and some
built-in default rule matches, `normalizeField` returns the replacement of
the first matching DEFAULT rule — regardless of any caller-supplied rules,
since those are appended after the defaults. -/
theorem c6_rule_precedence (user : UserNormalizerCfg) (key path : String) (v : JTree) :
    ((mkNormalizer (some user)).fieldsToNormalize =
      DEFAULT_CONFIG.fieldsToNormalize ++ (user.fieldsToNormalize.getD []))
    ∧ (∀ cn, (mkNormalizer (some user)).customNormalizers.find?
          (fun c => patternMatches c.pattern key path) = some cn →
        normalizeFieldT (mkNormalizer (some user)) key v path = cn.normalizer v path)
    ∧ ((∀ cn ∈ (mkNormalizer (some user)).customNormalizers,
          patternMatches cn.pattern key path = false) →
       DEFAULT_CONFIG.fieldsToNormalize.any
          (fun r => patternMatches r.pattern key path) = true →
       ∃ r, DEFAULT_CONFIG.fieldsToNormalize.find?
              (fun r => patternMatches r.pattern key path) = some r ∧
            normalizeFieldT (mkNormalizer (some user)) key v path = r.replacement) := by
  refine ⟨by simp [mkNormalizer, DEFAULT_CONFIG], ?_, ?_⟩
  · intro cn hcn
    unfold normalizeFieldT
    rw [hcn]
  · intro hcust hdef
    have hnone : (mkNormalizer (some user)).customNormalizers.find?
        (fun c => patternMatches c.pattern key path) = none := by
      rw [List.find?_eq_none]
      intro cn hcn
      simp [hcust cn hcn]
    have hsome : (DEFAULT_CONFIG.fieldsToNormalize.find?
        (fun r => patternMatches r.pattern key path)).isSome := by
      rw [List.find?_isSome]
      exact (List.any_eq_true).1 hdef
    obtain ⟨r, hr⟩ := Option.isSome_iff_exists.1 hsome
    refine ⟨r, hr, ?_⟩
    unfold normalizeFieldT
    rw [hnone]
    have happ : (mkNormalizer (some user)).fieldsToNormalize.find?
        (fun r => patternMatches r.pattern key path) = some r := by
      show ((DEFAULT_CONFIG.fieldsToNormalize ++ _).find? _) = some r
      rw [List.find?_append, hr]
      rfl
    rw [happ]

/-- C6 witness: for the key `sessionId` with a caller-supplied rule also
matching it, the first matching default rule (`/id$/i`, replacement
`<<ID>>`) wins. -/
theorem c6_rule_precedence_witness :
    ∃ r, DEFAULT_CONFIG.fieldsToNormalize.find?
          (fun r => patternMatches r.pattern "sessionId" "sessionId") = some r ∧
        normalizeFieldT (mkNormalizer (some overrideAttemptCfg)) "sessionId"
          (.str "abc123") "sessionId" = r.replacement :=
  (c6_rule_precedence overrideAttemptCfg "sessionId" "sessionId" (.str "abc123")).2.2
    (by intro cn hcn; simp [mkNormalizer, DEFAULT_CONFIG, overrideAttemptCfg] at hcn)
    (by decide)

/-! ## Claim C10 — undefined replacement acts as the no-match sentinel -/

/-- C10: (a) if the first matching custom normalizer returns `undefined`,
`normalizeField` returns `undefined`; (b) if no custom normalizer matches
and the first matching rule's `replacement` is omitted (`undefined`),
`normalizeField` returns `undefined`; (c) whenever `normalizeField` returns
`undefined` on a non-ignored member, `normalize` does not substitute
`undefined` — it recursively normalizes the member's original value. -/
theorem c10_undefined_is_no_match (cfg : NormConfig) (path k : String) (v : JTree)
    (rest : JFieldList) :
    (∀ cn, cfg.customNormalizers.find?
        (fun c => patternMatches c.pattern k (childPath path k)) = some cn →
      cn.normalizer v (childPath path k) = none →
      normalizeFieldT cfg k v (childPath path k) = none)
    ∧ (∀ r, cfg.customNormalizers.find?
          (fun c => patternMatches c.pattern k (childPath path k)) = none →
        cfg.fieldsToNormalize.find?
          (fun ru => patternMatches ru.pattern k (childPath path k)) = some r →
        r.replacement = none →
        normalizeFieldT cfg k v (childPath path k) = none)
    ∧ (shouldIgnoreField cfg k (childPath path k) = false →
       normalizeFieldT cfg k v (childPath path k) = none →
       normFieldsT cfg path (.cons k v rest) =
         .cons k (normalizeT cfg (childPath path k) v) (normFieldsT cfg path rest)) := by
  refine ⟨?_, ?_, ?_⟩
  · intro cn hcn hout
    unfold normalizeFieldT
    rw [hcn]
    exact hout
  · intro r hnone hr hrep
    unfold normalizeFieldT
    rw [hnone, hr]
    exact hrep
  · intro hig hnf
    have hstep : normFieldsT cfg path (.cons k v rest) =
        (if shouldIgnoreField cfg k (childPath path k) = true then normFieldsT cfg path rest
         else
           match normalizeFieldT cfg k v (childPath path k) with
           | some r => .cons k r (normFieldsT cfg path rest)
           | none => .cons k (normalizeT cfg (childPath path k) v)
               (normFieldsT cfg path rest)) := rfl
    rw [hstep, hig, hnf]
    simp

/-- C10 witness: with a rule matching `foo` whose replacement is omitted,
the `foo` member is recursively normalized rather than replaced by
`undefined`. -/
theorem c10_undefined_is_no_match_witness :
    normFieldsT undefReplacementCfg "" (.cons "foo" (.str "bar") .nil) =
      .cons "foo" (normalizeT undefReplacementCfg (childPath "" "foo") (.str "bar")) .nil :=
  (c10_undefined_is_no_match undefReplacementCfg "" "foo" (.str "bar") .nil).2.2
    (by decide) (by decide)

/-! ## Claim C9 — idempotence of normalize on tree inputs -/

/-- Unfolding step for `normFieldsT` on a cons cell. -/
theorem normFieldsT_cons (cfg : NormConfig) (path k : String) (v : JTree)
    (rest : JFieldList) :
    normFieldsT cfg path (.cons k v rest) =
      (if shouldIgnoreField cfg k (childPath path k) = true then normFieldsT cfg path rest
       else
         match normalizeFieldT cfg k v (childPath path k) with
         | some r => .cons k r (normFieldsT cfg path rest)
         | none => .cons k (normalizeT cfg (childPath path k) v)
             (normFieldsT cfg path rest)) := rfl

/-- Unfolding step for `normArrT` on a cons cell. -/
theorem normArrT_cons (cfg : NormConfig) (path : String) (i : Nat) (x : JTree)
    (rest : JTreeList) :
    normArrT cfg path i (.cons x rest) =
      .cons (normalizeT cfg (itemPath path i) x) (normArrT cfg path (i + 1) rest) := rfl

/-- With no custom normalizers configured, `normalizeField` only inspects the
key and the path, never the value. -/
theorem normalizeFieldT_value_indep (cfg : NormConfig)
    (hc : cfg.customNormalizers = []) (k : String) (v w : JTree) (p : String) :
    normalizeFieldT cfg k v p = normalizeFieldT cfg k w p := by
  unfold normalizeFieldT
  rw [hc]
  rfl

mutual

/-- For a configuration without custom normalizers, `normalize` is
idempotent at every path on tree-shaped values. -/
theorem normalizeT_idem (cfg : NormConfig) (hc : cfg.customNormalizers = []) :
    ∀ (path : String) (t : JTree),
      normalizeT cfg path (normalizeT cfg path t) = normalizeT cfg path t
  | _, .null => rfl
  | _, .bool _ => rfl
  | _, .num _ => rfl
  | _, .str _ => rfl
  | path, .arr items => by
    show JTree.arr (normArrT cfg path 0 (normArrT cfg path 0 items)) = _
    rw [normArrT_idem cfg hc path 0 items]
    rfl
  | path, .obj fields => by
    show JTree.obj (normFieldsT cfg path (normFieldsT cfg path fields)) = _
    rw [normFieldsT_idem cfg hc path fields]
    rfl

/-- Array counterpart of `normalizeT_idem`. -/
theorem normArrT_idem (cfg : NormConfig) (hc : cfg.customNormalizers = []) :
    ∀ (path : String) (i : Nat) (items : JTreeList),
      normArrT cfg path i (normArrT cfg path i items) = normArrT cfg path i items
  | _, _, .nil => rfl
  | path, i, .cons x rest => by
    rw [normArrT_cons, normArrT_cons, normalizeT_idem cfg hc (itemPath path i) x,
      normArrT_idem cfg hc path (i + 1) rest]

/-- Object-field counterpart of `normalizeT_idem`. -/
theorem normFieldsT_idem (cfg : NormConfig) (hc : cfg.customNormalizers = []) :
    ∀ (path : String) (fields : JFieldList),
      normFieldsT cfg path (normFieldsT cfg path fields) = normFieldsT cfg path fields
  | _, .nil => rfl
  | path, .cons k v rest => by
    rw [normFieldsT_cons]
    cases hig : shouldIgnoreField cfg k (childPath path k)
    · cases hnf : normalizeFieldT cfg k v (childPath path k)
      · simp only [Bool.false_eq_true, if_false]
        rw [normFieldsT_cons, hig]
        have hnf2 : normalizeFieldT cfg k (normalizeT cfg (childPath path k) v)
            (childPath path k) = none := by
          rw [normalizeFieldT_value_indep cfg hc k _ v (childPath path k)]
          exact hnf
        rw [hnf2]
        simp only [Bool.false_eq_true, if_false]
        rw [normalizeT_idem cfg hc (childPath path k) v,
          normFieldsT_idem cfg hc path rest]
      · case some r =>
        simp only [Bool.false_eq_true, if_false]
        rw [normFieldsT_cons, hig]
        have hnf2 : normalizeFieldT cfg k r (childPath path k) = some r := by
          rw [normalizeFieldT_value_indep cfg hc k r v (childPath path k)]
          exact hnf
        rw [hnf2]
        simp only [Bool.false_eq_true, if_false]
        rw [normFieldsT_idem cfg hc path rest]
    · simp only [if_true]
      exact normFieldsT_idem cfg hc path rest

end

/-! The claim theorem for C9 appears after the heap model: idempotence is
proved both for unshared trees (via `normalizeT_idem` above) and for object
graphs with shared references (via the heap model's output being a fixed
point of normalize). -/

/-! ## Sorting lemmas for the loop-directory enumeration -/

/-- Membership in an insertion step. -/
theorem mem_insertSorted (lt : String → String → Bool) (x y : String) :
    ∀ l : List String, y ∈ insertSorted lt x l ↔ y = x ∨ y ∈ l
  | [] => by simp [insertSorted]
  | z :: zs => by
    by_cases h : lt z x = true
    · simp only [insertSorted]
      rw [if_pos h]
      simp only [List.mem_cons, mem_insertSorted lt x y zs]
      tauto
    · simp only [insertSorted]
      rw [if_neg h]
      simp only [List.mem_cons]

/-- Membership is preserved by the sort. -/
theorem mem_sortJS (lt : String → String → Bool) (y : String) :
    ∀ l : List String, y ∈ sortJS lt l ↔ y ∈ l
  | [] => Iff.rfl
  | x :: xs => by
    simp only [sortJS, mem_insertSorted lt x y (sortJS lt xs), mem_sortJS lt y xs,
      List.mem_cons]

/-- Length of an insertion step. -/
theorem length_insertSorted (lt : String → String → Bool) (x : String) :
    ∀ l : List String, (insertSorted lt x l).length = l.length + 1
  | [] => rfl
  | z :: zs => by
    by_cases h : lt z x = true
    · simp [insertSorted, h, length_insertSorted lt x zs]
    · simp [insertSorted, h]

/-- The sort preserves length. -/
theorem length_sortJS (lt : String → String → Bool) :
    ∀ l : List String, (sortJS lt l).length = l.length
  | [] => rfl
  | x :: xs => by
    simp [sortJS, length_insertSorted, length_sortJS lt xs]

/-- On names whose loop keys are both defined, the comparator is the strict
order of the parsed integers. -/
theorem jsCmpLt_of_keys (a b : String) (x y : Int) (ha : loopNumKey a = some x)
    (hb : loopNumKey b = some y) : jsCmpLt a b = decide (x < y) := by
  unfold jsCmpLt
  rw [ha, hb]

/-- The parsed-key order used to state sortedness. -/
def keyLe (a b : String) : Prop :=
  (loopNumKey a).getD 0 ≤ (loopNumKey b).getD 0

/-- Inserting a defined-key name into a sorted defined-key list keeps it
sorted by parsed key. -/
theorem pairwise_insertSorted (x : String) (hx : (loopNumKey x).isSome) :
    ∀ l : List String, (∀ a ∈ l, (loopNumKey a).isSome) →
      List.Pairwise keyLe l → List.Pairwise keyLe (insertSorted jsCmpLt x l)
  | [], _, _ => by simp [insertSorted]
  | y :: ys, hl, hp => by
    obtain ⟨ky, hky⟩ := Option.isSome_iff_exists.1 (hl y (by simp))
    obtain ⟨kx, hkx⟩ := Option.isSome_iff_exists.1 hx
    rw [List.pairwise_cons] at hp
    by_cases h : jsCmpLt y x = true
    · have hyx : ky < kx := by
        have hcmp := jsCmpLt_of_keys y x ky kx hky hkx
        exact of_decide_eq_true (by rw [← hcmp]; exact h)
      simp only [insertSorted]
      rw [if_pos h, List.pairwise_cons]
      refine ⟨?_, pairwise_insertSorted x hx ys (fun a ha => hl a (by simp [ha])) hp.2⟩
      intro z hz
      rcases (mem_insertSorted jsCmpLt x z ys).1 hz with rfl | hz'
      · unfold keyLe
        rw [hky, hkx]
        exact le_of_lt hyx
      · exact hp.1 z hz'
    · have hxy : kx ≤ ky := by
        have hcmp := jsCmpLt_of_keys y x ky kx hky hkx
        rw [hcmp] at h
        exact le_of_not_lt (fun hlt => h (decide_eq_true hlt))
      simp only [insertSorted]
      rw [if_neg h, List.pairwise_cons]
      refine ⟨?_, List.pairwise_cons.2 ⟨hp.1, hp.2⟩⟩
      intro z hz
      rcases List.mem_cons.1 hz with rfl | hz'
      · unfold keyLe
        rw [hky, hkx]
        exact hxy
      · have hyz : keyLe y z := hp.1 z hz'
        unfold keyLe at hyz ⊢
        rw [hkx]
        rw [hky] at hyz
        exact le_trans hxy hyz

/-- Sorting a list of defined-key names yields a list sorted by parsed key. -/
theorem pairwise_sortJS :
    ∀ l : List String, (∀ a ∈ l, (loopNumKey a).isSome) →
      List.Pairwise keyLe (sortJS jsCmpLt l)
  | [], _ => List.Pairwise.nil
  | x :: xs, hl => by
    have hrec := pairwise_sortJS xs (fun a ha => hl a (by simp [ha]))
    refine pairwise_insertSorted x (hl x (by simp)) (sortJS jsCmpLt xs) ?_ hrec
    intro a ha
    exact hl a (by simp [(mem_sortJS jsCmpLt a xs).1 ha])

/-! ## Claim C5 — loop-directory enumeration -/

/-- A snapshot directory whose only entry is a `loop-` directory with a
non-integer suffix. -/
def nonIntSuffixFS : SnapshotFS :=
  ⟨true, [⟨"loop-abc", true⟩]⟩

/-- C5 counterexample: the entry `loop-abc` has a non-integer suffix
(`parseInt` yields `NaN`), yet the enumeration does NOT exclude it — it is
counted, so the claim that only `loop-<integer>` names are enumerated is
false on this input. -/
theorem c5_counterexample :
    loopNumKey "loop-abc" = none ∧
      loopDirs nonIntSuffixFS = ["loop-abc"] ∧
      countLoops nonIntSuffixFS = 1 := by
  refine ⟨by decide, by decide, by decide⟩

/-- C5 (amended): the enumeration filters only on the `loop-` name prefix
and the directory bit — a non-integer suffix is NOT excluded; the loop
count is the number of entries so retained; and when every retained name
parses to an integer, the enumeration is ordered by the parsed integer
value (numeric, not lexicographic — so `loop-2` sorts before `loop-10`). -/
theorem c5_amended (fsx : SnapshotFS) :
    (∀ x, x ∈ loopDirs fsx ↔
      ∃ e ∈ fsx.entries, e.name = x ∧ jsStartsWith "loop-" x = true ∧ e.isDir = true)
    ∧ (fsx.rootExists = true →
        countLoops fsx =
          (fsx.entries.filter (fun e => jsStartsWith "loop-" e.name && e.isDir)).length)
    ∧ ((∀ x ∈ loopDirs fsx, (loopNumKey x).isSome) →
        List.Pairwise keyLe (loopDirs fsx)) := by
  refine ⟨?_, ?_, ?_⟩
  · intro x
    unfold loopDirs
    rw [mem_sortJS]
    simp only [List.mem_map, List.mem_filter, Bool.and_eq_true]
    constructor
    · rintro ⟨e, ⟨he, hpre, hdir⟩, rfl⟩
      exact ⟨e, he, rfl, hpre, hdir⟩
    · rintro ⟨e, he, rfl, hpre, hdir⟩
      exact ⟨e, ⟨he, hpre, hdir⟩, rfl⟩
  · intro hroot
    unfold countLoops loopDirs
    rw [hroot, if_pos rfl, length_sortJS, List.length_map]
  · intro hall
    unfold loopDirs
    refine pairwise_sortJS _ ?_
    intro a ha
    refine hall a ?_
    unfold loopDirs
    rw [mem_sortJS]
    exact ha

/-- A snapshot directory listing `loop-10` before `loop-2`. -/
def twoLoopFS : SnapshotFS :=
  ⟨true, [⟨"loop-10", true⟩, ⟨"loop-2", true⟩]⟩

/-- C5 witness: on a directory containing `loop-10` and `loop-2`, the
enumeration is sorted by parsed integer, and indeed `loop-2` comes first. -/
theorem c5_amended_witness :
    List.Pairwise keyLe (loopDirs twoLoopFS) ∧
      loopDirs twoLoopFS = ["loop-2", "loop-10"] :=
  ⟨(c5_amended twoLoopFS).2.2 (by decide), by decide⟩

/-! ## Claim C3 — loop-count mismatch is a hard failure -/

/-- C3: whenever the snapshot exists, the hook records no error, and the
run itself does not throw, a divergence between the executed loop count and
the recorded loop count makes `test` fail with the loop-count-mismatch
error — for every configuration `cfg`, in particular when update mode is
enabled. -/
theorem c3_loop_count_mismatch (opts : SnapOptions) (env : TestEnv)
    (cfg : Option TestRunCfg) (hex : snapshotExists env.fsx = true)
    (hse : env.setupError = none) (hrt : env.runThrows = none)
    (hre : env.runError = none) (hne : env.executedLoops ≠ countLoops env.fsx) :
    (testModel opts env cfg).1 =
      .loopMismatch env.executedLoops (countLoops env.fsx) := by
  obtain ⟨fsx, se, rt, re, el⟩ := env
  simp only at hex hse hrt hre hne
  subst hse hrt hre
  simp [testModel, hex, hne]

/-- C3 witness: a snapshot recording 1 loop replayed by a runtime that
executes 2 loops fails with the loop-count-mismatch error even with
`updateSnapshots := true` in the per-call configuration. -/
theorem c3_loop_count_mismatch_witness :
    (testModel ⟨"/snap", none, none⟩ ⟨⟨true, [⟨"loop-1", true⟩]⟩, none, none, none, 2⟩
        (some ⟨some true, none⟩)).1 =
      .loopMismatch 2 (countLoops ⟨true, [⟨"loop-1", true⟩]⟩) :=
  c3_loop_count_mismatch ⟨"/snap", none, none⟩ ⟨⟨true, [⟨"loop-1", true⟩]⟩, none, none, none, 2⟩
    (some ⟨some true, none⟩) (by decide) rfl rfl rfl (by decide)

/-! ## Claim C4 — snapshot-not-found precondition -/

/-- C4: `test` fails with the "not found" error (whose message instructs
the caller to run `generate` first) if and only if the snapshot does not
exist; existence is the conjunction of root-directory presence and a
positive loop count; and when the error is raised, no step has been
performed on the runtime — in particular no hook was installed. -/
theorem c4_not_found_iff (opts : SnapOptions) (env : TestEnv) (cfg : Option TestRunCfg) :
    ((testModel opts env cfg).1 = .notFound (snapshotNotFoundMsg opts.snapshotPath) ↔
      snapshotExists env.fsx = false)
    ∧ (snapshotExists env.fsx = false → (testModel opts env cfg).2 = [])
    ∧ snapshotExists env.fsx = (env.fsx.rootExists && decide (0 < countLoops env.fsx)) := by
  obtain ⟨fsx, se, rt, re, el⟩ := env
  by_cases h : snapshotExists fsx = false
  · exact ⟨by simp [testModel, h], by simp [testModel, h], rfl⟩
  · simp only [Bool.not_eq_false] at h
    refine ⟨?_, ?_, rfl⟩
    · cases se <;> cases rt <;> cases re <;>
        (simp [testModel, h]; try (split <;> simp))
    · simp [h]

/-- C4 witness: on an existing but empty snapshot directory (loop count 0)
`test` raises the not-found error and performs no step on the runtime. -/
theorem c4_not_found_iff_witness :
    (testModel ⟨"/snap", none, none⟩ ⟨⟨true, []⟩, none, none, none, 0⟩ none).1 =
        .notFound (snapshotNotFoundMsg "/snap") ∧
      (testModel ⟨"/snap", none, none⟩ ⟨⟨true, []⟩, none, none, none, 0⟩ none).2 = [] :=
  ⟨((c4_not_found_iff ⟨"/snap", none, none⟩ ⟨⟨true, []⟩, none, none, none, 0⟩ none).1).mpr
      (by decide),
    (c4_not_found_iff ⟨"/snap", none, none⟩ ⟨⟨true, []⟩, none, none, none, 0⟩ none).2.1
      (by decide)⟩

/-! ## Claim C2 — error isolation and which failure is kept -/

/-- Appending one error to the front: the last error of `e :: l` is the
last of `l`, or `e` when `l` is empty. -/
theorem getLast?_cons_or (e : String) (l : List String) :
    (e :: l).getLast? = (l.getLast?).or (some e) := by
  cases l with
  | nil => rfl
  | cons c cs =>
    rw [List.getLast?_cons_cons]
    have hne : (c :: cs : List String) ≠ [] := by simp
    obtain ⟨y, hy⟩ := Option.isSome_iff_exists.1 (List.getLast?_isSome.2 hne)
    rw [hy]
    rfl

/-- The error state after a run is the last error of the run, falling back
to the incoming state when no callback failed. -/
theorem runHooks_getLastError :
    ∀ (outcomes : List (Except String Unit)) (st : HookErrSt),
      (runHooks st outcomes).lastError = ((errsOf outcomes).getLast?).or st.lastError
  | [], _ => rfl
  | .ok _ :: os, st => by
    simp only [runHooks, safeHook, errsOf, List.filterMap_cons]
    exact runHooks_getLastError os st
  | .error e :: os, st => by
    simp only [runHooks, safeHook, errsOf, List.filterMap_cons]
    rw [runHooks_getLastError os ⟨some e⟩]
    show _ = ((e :: os.filterMap _).getLast?).or st.lastError
    rw [getLast?_cons_or]
    cases hlast : (os.filterMap
        (fun o => match o with | .error e => some e | .ok _ => none)).getLast? <;>
      simp [errsOf, hlast, Option.or]

/-- C2 counterexample: when two instrumented callbacks throw (`"first"`
then `"second"`), `getLastError` afterwards returns the SECOND failure —
the first stored failure is overwritten, so the claim that the first
failure is kept is false on this execution sequence. -/
theorem c2_counterexample :
    getLastError (runHooks initialHookSt [.error "first", .error "second"]) =
        some "second" ∧
      getLastError (runHooks initialHookSt [.error "first", .error "second"]) ≠
        some "first" := by
  refine ⟨by decide, by decide⟩

/-- C2 (amended): every failure of an instrumented callback is caught and
swallowed (`safeHook` returns instead of re-throwing, recording the error),
and after a sequence of executions on one hook instance `getLastError`
returns the MOST RECENT failure — each subsequent failure overwrites the
stored one; when no callback failed the state is unchanged. -/
theorem c2_amended (outcomes : List (Except String Unit)) (st : HookErrSt) :
    (∀ (e : String) (st' : HookErrSt), safeHook st' (.error e) = (none, ⟨some e⟩))
    ∧ (errsOf outcomes ≠ [] →
        getLastError (runHooks st outcomes) = (errsOf outcomes).getLast?)
    ∧ (errsOf outcomes = [] →
        getLastError (runHooks st outcomes) = st.lastError) := by
  refine ⟨fun e st' => rfl, ?_, ?_⟩
  · intro hne
    unfold getLastError
    rw [runHooks_getLastError outcomes st]
    obtain ⟨y, hy⟩ := Option.isSome_iff_exists.1 (List.getLast?_isSome.2 hne)
    rw [hy]
    rfl
  · intro hnil
    unfold getLastError
    rw [runHooks_getLastError outcomes st, hnil]
    rfl

/-- C2 witness: on the concrete sequence throw/ok/throw the stored error is
the last failure. -/
theorem c2_amended_witness :
    getLastError (runHooks initialHookSt [.error "first", .ok (), .error "second"]) =
      (errsOf [.error "first", .ok (), .error "second"]).getLast? :=
  (c2_amended [.error "first", .ok (), .error "second"] initialHookSt).2.1 (by decide)

/-! ## Claim C8 — hook lifecycle state machine -/

/-- C8 counterexample: calling `unhookAgent` when not installed is a no-op
but emits NO log message at all — in particular no warning — so the claim
that a redundant uninstall is accompanied by a warning is false. -/
theorem c8_counterexample :
    unhookAgent (0 : Nat) ⟨false, none⟩ = ((0 : Nat), ⟨false, none⟩, []) ∧
      HookLog.warnAlreadyHooked ∉ (unhookAgent (0 : Nat) ⟨false, none⟩).2.2 := by
  refine ⟨by decide, by decide⟩

/-- C8 (amended): the lifecycle is Uninstalled -> Installed -> Uninstalled
and both operations are total (never an error): a redundant `hookAgent`
leaves the agent's callbacks and the backup map unchanged and emits the
already-hooked warning; a redundant `unhookAgent` is a SILENT no-op (no
warning); and an install followed by an uninstall restores exactly the
callback set captured at install time and clears the backup map. -/
theorem c8_amended {γ : Type} (instr cbs : γ) (h : HookLifecycle γ) :
    (h.isHooked = true → hookAgent instr cbs h = (cbs, h, [.warnAlreadyHooked]))
    ∧ (h.isHooked = false → unhookAgent cbs h = (cbs, h, []))
    ∧ (h.isHooked = false →
        unhookAgent (hookAgent instr cbs h).1 (hookAgent instr cbs h).2.1 =
          (cbs, ⟨false, none⟩, [.debugUnhooked])) := by
  obtain ⟨ih, oh⟩ := h
  refine ⟨?_, ?_, ?_⟩ <;> intro hih <;> simp only at hih <;> subst hih <;>
    simp [hookAgent, unhookAgent]

/-- C8 witness: concrete redundant-uninstall silence and install/uninstall
round trip at an abstract callback set modelled by a number. -/
theorem c8_amended_witness :
    unhookAgent (7 : Nat) ⟨false, none⟩ = ((7 : Nat), ⟨false, none⟩, []) ∧
      unhookAgent (hookAgent (1 : Nat) 7 ⟨false, none⟩).1
          (hookAgent (1 : Nat) 7 ⟨false, none⟩).2.1 =
        ((7 : Nat), ⟨false, none⟩, [.debugUnhooked]) :=
  ⟨(c8_amended 1 7 ⟨false, none⟩).2.1 rfl, (c8_amended 1 7 ⟨false, none⟩).2.2 rfl⟩

/-! ## Claim C7 — cycle handling of normalize -/

/-- Child paths of a member are never the empty string when the parent path
is non-empty. -/
theorem childPath_ne (path k : String) (h : path ≠ "") : childPath path k ≠ "" := by
  unfold childPath
  rw [if_neg h]
  intro heq
  have hlen : (path ++ "." ++ k).length = 0 := by rw [heq]; rfl
  rw [String.length_append, String.length_append] at hlen
  have hdot : ("." : String).length = 1 := rfl
  omega

/-- Array item paths are never the empty string. -/
theorem itemPath_ne (path : String) (i : Nat) : itemPath path i ≠ "" := by
  unfold itemPath
  intro heq
  have hlen : (path ++ "[" ++ toString i ++ "]").length = 0 := by rw [heq]; rfl
  rw [String.length_append, String.length_append, String.length_append] at hlen
  have hbr : ("]" : String).length = 1 := rfl
  omega

/-- A top-level (`path = ""`) call resets the seen set, so its result does
not depend on the incoming seen state. -/
theorem normV_reset (cfg : HCfg) (heap : List HObj) (fuel : Nat)
    (s1 s2 : List Nat) (v : HVal) :
    normV cfg heap fuel s1 "" v = normV cfg heap fuel s2 "" v := by
  cases fuel with
  | zero => rfl
  | succ f => rfl

/-- Below the top level, a reference already in the seen set is replaced by
the `[Circular]` marker and nothing else changes. -/
theorem normV_circular (cfg : HCfg) (heap : List HObj) (fuel : Nat)
    (seen : List Nat) (path : String) (a : Nat) (hpath : path ≠ "")
    (ha : a ∈ seen) :
    normV cfg heap (fuel + 1) seen path (.ref a) = some (.str "[Circular]", seen) := by
  simp only [normV]
  rw [if_neg hpath, if_pos ha]

/-- Growing the seen set cannot increase the number of unseen addresses. -/
theorem unseenCount_mono (heap : List HObj) (seen s' : List Nat)
    (hsub : ∀ x ∈ seen, x ∈ s') :
    unseenCount heap s' ≤ unseenCount heap seen := by
  unfold unseenCount
  apply Finset.card_le_card
  intro x hx
  simp only [Finset.mem_filter, Finset.mem_range] at hx ⊢
  exact ⟨hx.1, fun hmem => hx.2 (hsub x hmem)⟩

/-- Adding a fresh valid address to the seen set strictly decreases the
number of unseen addresses. -/
theorem unseenCount_cons_lt (heap : List HObj) (seen : List Nat) (a : Nat)
    (ha : a < heap.length) (hmem : a ∉ seen) :
    unseenCount heap (a :: seen) < unseenCount heap seen := by
  unfold unseenCount
  have hss : (Finset.range heap.length).filter (fun x => x ∉ a :: seen) ⊆
      ((Finset.range heap.length).filter (fun x => x ∉ seen)).erase a := by
    intro x hx
    simp only [Finset.mem_filter, Finset.mem_range, List.mem_cons, Finset.mem_erase] at hx ⊢
    push_neg at hx
    exact ⟨hx.2.1, hx.1, hx.2.2⟩
  have hmemf : a ∈ (Finset.range heap.length).filter (fun x => x ∉ seen) := by
    simp only [Finset.mem_filter, Finset.mem_range]
    exact ⟨ha, hmem⟩
  exact lt_of_le_of_lt (Finset.card_le_card hss) (Finset.card_erase_lt_of_mem hmemf)

/-- On the self-referential object under the empty-string key, every amount
of fuel is exhausted: each pass through the member with key `""` recurses
at path `""`, which resets the seen set, so the cycle is never detected. -/
theorem normV_emptyKeyHeap_none :
    ∀ (fuel : Nat) (seen : List Nat),
      normV defaultHCfg emptyKeyHeap fuel seen "" (.ref 0) = none := by
  intro fuel
  induction fuel using Nat.strong_induction_on with
  | _ fuel ih =>
    intro seen
    match fuel, ih with
    | 0, _ => rfl
    | 1, _ => rfl
    | 2, _ => rfl
    | (m + 3), ih =>
      have h := ih m (by omega) [0]
      calc normV defaultHCfg emptyKeyHeap (m + 3) seen "" (.ref 0)
          = (match (match normV defaultHCfg emptyKeyHeap m [0] "" (.ref 0) with
                    | none => none
                    | some (t, s1) =>
                      match normFields defaultHCfg emptyKeyHeap m s1 "" [] with
                      | none => none
                      | some (fs, s2) => some (JFieldList.cons "" t fs, s2)) with
             | none => none
             | some (fs, s') => some (JTree.obj fs, s')) := rfl
        _ = none := by rw [h]

/-- C7 counterexample: `normalize` does NOT terminate on every cyclic
object graph. On the object `a = {'': a}` the member key is the empty
string, so the recursive call's path is the empty string, which resets the
seen set on entry; the traversal therefore never detects the cycle and no
amount of fuel completes it. -/
theorem c7_counterexample :
    ¬ normTerminates defaultHCfg emptyKeyHeap [] "" (.ref 0) := by
  rintro ⟨fuel, hsome⟩
  rw [normV_emptyKeyHeap_none fuel []] at hsome
  simp at hsome

/-- Unfolding step of `normV` at a reference. -/
theorem normV_ref_step (cfg : HCfg) (heap : List HObj) (fuel : Nat)
    (seen : List Nat) (path : String) (a : Nat) :
    normV cfg heap (fuel + 1) seen path (.ref a) =
      (if a ∈ (if path = "" then ([] : List Nat) else seen)
       then some (.str "[Circular]", (if path = "" then ([] : List Nat) else seen))
       else
        match heap[a]? with
        | none => some (.null, (if path = "" then ([] : List Nat) else seen))
        | some o =>
          normO cfg heap fuel (a :: (if path = "" then ([] : List Nat) else seen)) path o) :=
  rfl

/-- Unfolding step of `normO` at an array. -/
theorem normO_arr_step (cfg : HCfg) (heap : List HObj) (fuel : Nat)
    (seen : List Nat) (path : String) (items : List HVal) :
    normO cfg heap (fuel + 1) seen path (.arr items) =
      (match normArr cfg heap fuel seen path 0 items with
       | none => none
       | some (ts, s') => some (.arr ts, s')) := rfl

/-- Unfolding step of `normO` at a keyed object. -/
theorem normO_obj_step (cfg : HCfg) (heap : List HObj) (fuel : Nat)
    (seen : List Nat) (path : String) (fields : List (String × HVal)) :
    normO cfg heap (fuel + 1) seen path (.obj fields) =
      (match normFields cfg heap fuel seen path fields with
       | none => none
       | some (fs, s') => some (.obj fs, s')) := rfl

/-- Unfolding step of `normArr` at a cons cell. -/
theorem normArr_cons_step (cfg : HCfg) (heap : List HObj) (fuel : Nat)
    (seen : List Nat) (path : String) (i : Nat) (x : HVal) (rest : List HVal) :
    normArr cfg heap (fuel + 1) seen path i (x :: rest) =
      (match normV cfg heap fuel seen (itemPath path i) x with
       | none => none
       | some (t, s1) =>
         match normArr cfg heap fuel s1 path (i + 1) rest with
         | none => none
         | some (ts, s2) => some (.cons t ts, s2)) := rfl

/-- Unfolding step of `normFields` at a cons cell. -/
theorem normFields_cons_step (cfg : HCfg) (heap : List HObj) (fuel : Nat)
    (seen : List Nat) (path k : String) (v : HVal) (rest : List (String × HVal)) :
    normFields cfg heap (fuel + 1) seen path ((k, v) :: rest) =
      (if shouldIgnoreH cfg k (childPath path k) then
        normFields cfg heap fuel seen path rest
       else
        match normalizeFieldH cfg k v (childPath path k) with
        | some r =>
          match normFields cfg heap fuel seen path rest with
          | none => none
          | some (fs, s') => some (.cons k r fs, s')
        | none =>
          match normV cfg heap fuel seen (childPath path k) v with
          | none => none
          | some (t, s1) =>
            match normFields cfg heap fuel s1 path rest with
            | none => none
            | some (fs, s2) => some (.cons k t fs, s2)) := rfl

/-- A successful traversal stays successful, with the same result, when one
more unit of fuel is supplied (all four mutual functions at once). -/
theorem normMono (cfg : HCfg) (heap : List HObj) :
    ∀ fuel : Nat,
      (∀ seen path v r, normV cfg heap fuel seen path v = some r →
        normV cfg heap (fuel + 1) seen path v = some r)
      ∧ (∀ seen path o r, normO cfg heap fuel seen path o = some r →
        normO cfg heap (fuel + 1) seen path o = some r)
      ∧ (∀ seen path i items r, normArr cfg heap fuel seen path i items = some r →
        normArr cfg heap (fuel + 1) seen path i items = some r)
      ∧ (∀ seen path fields r, normFields cfg heap fuel seen path fields = some r →
        normFields cfg heap (fuel + 1) seen path fields = some r) := by
  intro fuel
  induction fuel with
  | zero =>
    refine ⟨fun _ _ _ _ h => Option.noConfusion h, fun _ _ _ _ h => Option.noConfusion h,
      fun _ _ _ _ _ h => Option.noConfusion h, fun _ _ _ _ h => Option.noConfusion h⟩
  | succ f ih =>
    obtain ⟨ihV, ihO, ihA, ihF⟩ := ih
    refine ⟨?_, ?_, ?_, ?_⟩
    · intro seen path v r h
      cases v with
      | null => exact h
      | bool b => exact h
      | num n => exact h
      | str s => exact h
      | ref a =>
        rw [normV_ref_step] at h ⊢
        by_cases hm : a ∈ (if path = "" then ([] : List Nat) else seen)
        · rw [if_pos hm] at h ⊢
          exact h
        · rw [if_neg hm] at h ⊢
          cases hg : heap[a]? with
          | none => rw [hg] at h; exact h
          | some o => rw [hg] at h; exact ihO _ _ _ _ h
    · intro seen path o r h
      cases o with
      | arr items =>
        rw [normO_arr_step] at h ⊢
        cases ha : normArr cfg heap f seen path 0 items with
        | none => rw [ha] at h; exact Option.noConfusion h
        | some p =>
          rw [ha] at h
          have ha' := ihA _ _ _ _ _ ha
          simp only [ha']
          exact h
      | obj fields =>
        rw [normO_obj_step] at h ⊢
        cases hf : normFields cfg heap f seen path fields with
        | none => rw [hf] at h; exact Option.noConfusion h
        | some p =>
          rw [hf] at h
          have hf' := ihF _ _ _ _ hf
          simp only [hf']
          exact h
    · intro seen path i items r h
      cases items with
      | nil => exact h
      | cons x rest =>
        rw [normArr_cons_step] at h ⊢
        cases hx : normV cfg heap f seen (itemPath path i) x with
        | none => rw [hx] at h; exact Option.noConfusion h
        | some p =>
          obtain ⟨t, s1⟩ := p
          rw [hx] at h
          have h2 : (match normArr cfg heap f s1 path (i + 1) rest with
              | none => none
              | some (ts, s2) => some (JTreeList.cons t ts, s2)) = some r := h
          have hx' := ihV _ _ _ _ hx
          simp only [hx']
          cases hr : normArr cfg heap f s1 path (i + 1) rest with
          | none => rw [hr] at h2; exact Option.noConfusion h2
          | some q =>
            rw [hr] at h2
            have hr' := ihA _ _ _ _ _ hr
            simp only [hr']
            exact h2
    · intro seen path fields r h
      cases fields with
      | nil => exact h
      | cons kv rest =>
        obtain ⟨k, v⟩ := kv
        rw [normFields_cons_step] at h ⊢
        by_cases hig : shouldIgnoreH cfg k (childPath path k) = true
        · rw [if_pos hig] at h ⊢
          exact ihF _ _ _ _ h
        · rw [if_neg hig] at h ⊢
          cases hnf : normalizeFieldH cfg k v (childPath path k) with
          | some rep =>
            rw [hnf] at h
            simp only [hnf]
            cases hr : normFields cfg heap f seen path rest with
            | none => rw [hr] at h; exact Option.noConfusion h
            | some q =>
              rw [hr] at h
              have hr' := ihF _ _ _ _ hr
              simp only [hr']
              exact h
          | none =>
            rw [hnf] at h
            simp only [hnf]
            cases hx : normV cfg heap f seen (childPath path k) v with
            | none => rw [hx] at h; exact Option.noConfusion h
            | some p =>
              obtain ⟨t, s1⟩ := p
              rw [hx] at h
              have h2 : (match normFields cfg heap f s1 path rest with
                  | none => none
                  | some (fs, s2) => some (JFieldList.cons k t fs, s2)) = some r := h
              have hx' := ihV _ _ _ _ hx
              simp only [hx']
              cases hr : normFields cfg heap f s1 path rest with
              | none => rw [hr] at h2; exact Option.noConfusion h2
              | some q =>
                rw [hr] at h2
                have hr' := ihF _ _ _ _ hr
                simp only [hr']
                exact h2

/-- Fuel monotonicity of `normV` for arbitrary fuel increases. -/
theorem normV_mono_le (cfg : HCfg) (heap : List HObj) (f f' : Nat) (hle : f ≤ f')
    (seen : List Nat) (path : String) (v : HVal) (r : JTree × List Nat)
    (h : normV cfg heap f seen path v = some r) :
    normV cfg heap f' seen path v = some r := by
  induction hle with
  | refl => exact h
  | step _ ih => exact (normMono cfg heap _).1 _ _ _ _ ih

/-- Fuel monotonicity of `normArr` for arbitrary fuel increases. -/
theorem normArr_mono_le (cfg : HCfg) (heap : List HObj) (f f' : Nat) (hle : f ≤ f')
    (seen : List Nat) (path : String) (i : Nat) (items : List HVal)
    (r : JTreeList × List Nat) (h : normArr cfg heap f seen path i items = some r) :
    normArr cfg heap f' seen path i items = some r := by
  induction hle with
  | refl => exact h
  | step _ ih => exact (normMono cfg heap _).2.2.1 _ _ _ _ _ ih

/-- Fuel monotonicity of `normFields` for arbitrary fuel increases. -/
theorem normFields_mono_le (cfg : HCfg) (heap : List HObj) (f f' : Nat) (hle : f ≤ f')
    (seen : List Nat) (path : String) (fields : List (String × HVal))
    (r : JFieldList × List Nat) (h : normFields cfg heap f seen path fields = some r) :
    normFields cfg heap f' seen path fields = some r := by
  induction hle with
  | refl => exact h
  | step _ ih => exact (normMono cfg heap _).2.2.2 _ _ _ _ ih

/-- Unfolding step of `normV` at `null`. -/
theorem normV_null_step (cfg : HCfg) (heap : List HObj) (fuel : Nat)
    (seen : List Nat) (path : String) :
    normV cfg heap (fuel + 1) seen path .null =
      some (.null, if path = "" then [] else seen) := rfl

/-- Unfolding step of `normV` at a boolean. -/
theorem normV_bool_step (cfg : HCfg) (heap : List HObj) (fuel : Nat)
    (seen : List Nat) (path : String) (b : Bool) :
    normV cfg heap (fuel + 1) seen path (.bool b) =
      some (.bool b, if path = "" then [] else seen) := rfl

/-- Unfolding step of `normV` at a number. -/
theorem normV_num_step (cfg : HCfg) (heap : List HObj) (fuel : Nat)
    (seen : List Nat) (path : String) (n : Int) :
    normV cfg heap (fuel + 1) seen path (.num n) =
      some (.num n, if path = "" then [] else seen) := rfl

/-- Unfolding step of `normV` at a string. -/
theorem normV_str_step (cfg : HCfg) (heap : List HObj) (fuel : Nat)
    (seen : List Nat) (path : String) (s : String) :
    normV cfg heap (fuel + 1) seen path (.str s) =
      some (.str s, if path = "" then [] else seen) := rfl

/-- Sufficient fuel exists below the top level: with a well-formed seen set
and a non-empty path (so no reset can fire; object member paths built from
a non-empty path are non-empty, and array item paths always are), the
traversal completes, only grows the seen set, keeps it well-formed, and
does not increase the number of unseen addresses. Proved by strong
induction on the number of unseen addresses. -/
theorem exNorm (cfg : HCfg) (heap : List HObj) :
    ∀ n : Nat,
      (∀ seen, seenInv heap seen → unseenCount heap seen ≤ n →
        ∀ path v, path ≠ "" →
          ∃ fuel t s', normV cfg heap fuel seen path v = some (t, s') ∧
            seenInv heap s' ∧ (∀ x ∈ seen, x ∈ s') ∧
            unseenCount heap s' ≤ unseenCount heap seen)
      ∧ (∀ seen, seenInv heap seen → unseenCount heap seen ≤ n →
        ∀ path i items,
          ∃ fuel ts s', normArr cfg heap fuel seen path i items = some (ts, s') ∧
            seenInv heap s' ∧ (∀ x ∈ seen, x ∈ s') ∧
            unseenCount heap s' ≤ unseenCount heap seen)
      ∧ (∀ seen, seenInv heap seen → unseenCount heap seen ≤ n →
        ∀ path fields, (∀ kv ∈ fields, childPath path kv.1 ≠ "") →
          ∃ fuel fs s', normFields cfg heap fuel seen path fields = some (fs, s') ∧
            seenInv heap s' ∧ (∀ x ∈ seen, x ∈ s') ∧
            unseenCount heap s' ≤ unseenCount heap seen) := by
  intro n
  induction n using Nat.strong_induction_on with
  | _ n ih =>
  have hV : ∀ seen, seenInv heap seen → unseenCount heap seen ≤ n →
      ∀ path v, path ≠ "" →
        ∃ fuel t s', normV cfg heap fuel seen path v = some (t, s') ∧
          seenInv heap s' ∧ (∀ x ∈ seen, x ∈ s') ∧
          unseenCount heap s' ≤ unseenCount heap seen := by
    intro seen hinv hcnt path v hpath
    cases v with
    | null =>
      exact ⟨1, .null, seen, by rw [normV_null_step, if_neg hpath], hinv,
        fun x hx => hx, le_refl _⟩
    | bool b =>
      exact ⟨1, .bool b, seen, by rw [normV_bool_step, if_neg hpath], hinv,
        fun x hx => hx, le_refl _⟩
    | num m =>
      exact ⟨1, .num m, seen, by rw [normV_num_step, if_neg hpath], hinv,
        fun x hx => hx, le_refl _⟩
    | str s =>
      exact ⟨1, .str s, seen, by rw [normV_str_step, if_neg hpath], hinv,
        fun x hx => hx, le_refl _⟩
    | ref a =>
      by_cases hm : a ∈ seen
      · exact ⟨0 + 1, .str "[Circular]", seen,
          normV_circular cfg heap 0 seen path a hpath hm, hinv, fun x hx => hx, le_refl _⟩
      · cases hg : heap[a]? with
        | none =>
          refine ⟨1, .null, seen, ?_, hinv, fun x hx => hx, le_refl _⟩
          rw [normV_ref_step, if_neg hpath, if_neg hm, hg]
        | some o =>
          have ha : a < heap.length := by
            by_contra hh
            rw [List.getElem?_eq_none (Nat.le_of_not_lt hh)] at hg
            exact Option.noConfusion hg
          have hinv' : seenInv heap (a :: seen) := by
            refine ⟨List.nodup_cons.2 ⟨hm, hinv.1⟩, ?_⟩
            intro x hx
            rcases List.mem_cons.1 hx with rfl | hx'
            · exact ha
            · exact hinv.2 x hx'
          have hlt : unseenCount heap (a :: seen) < unseenCount heap seen :=
            unseenCount_cons_lt heap seen a ha hm
          obtain ⟨_, ihAm, ihFm⟩ :=
            ih (unseenCount heap (a :: seen)) (lt_of_lt_of_le hlt hcnt)
          cases o with
          | arr items =>
            obtain ⟨f, ts, s', harr, hinv'', hsub'', hcnt''⟩ :=
              ihAm (a :: seen) hinv' (le_refl _) path 0 items
            refine ⟨f + 1 + 1, .arr ts, s', ?_, hinv'',
              fun x hx => hsub'' x (List.mem_cons_of_mem a hx),
              le_trans hcnt'' (le_of_lt hlt)⟩
            simp only [normV_ref_step, if_neg hpath, if_neg hm, hg, normO_arr_step, harr]
          | obj fields =>
            obtain ⟨f, fs, s', hfld, hinv'', hsub'', hcnt''⟩ :=
              ihFm (a :: seen) hinv' (le_refl _) path fields
                (fun kv _ => childPath_ne path kv.1 hpath)
            refine ⟨f + 1 + 1, .obj fs, s', ?_, hinv'',
              fun x hx => hsub'' x (List.mem_cons_of_mem a hx),
              le_trans hcnt'' (le_of_lt hlt)⟩
            simp only [normV_ref_step, if_neg hpath, if_neg hm, hg, normO_obj_step, hfld]
  have hArr : ∀ items path i seen, seenInv heap seen → unseenCount heap seen ≤ n →
      ∃ fuel ts s', normArr cfg heap fuel seen path i items = some (ts, s') ∧
        seenInv heap s' ∧ (∀ x ∈ seen, x ∈ s') ∧
        unseenCount heap s' ≤ unseenCount heap seen := by
    intro items
    induction items with
    | nil =>
      intro path i seen hinv hcnt
      exact ⟨1, .nil, seen, rfl, hinv, fun x hx => hx, le_refl _⟩
    | cons x rest ihrest =>
      intro path i seen hinv hcnt
      obtain ⟨f1, t, s1, hx, hinv1, hsub1, hcnt1⟩ :=
        hV seen hinv hcnt (itemPath path i) x (itemPath_ne path i)
      obtain ⟨f2, ts, s2, hrest, hinv2, hsub2, hcnt2⟩ :=
        ihrest path (i + 1) s1 hinv1 (le_trans hcnt1 hcnt)
      refine ⟨max f1 f2 + 1, .cons t ts, s2, ?_, hinv2,
        fun x' hx' => hsub2 x' (hsub1 x' hx'), le_trans hcnt2 hcnt1⟩
      have hx' := normV_mono_le cfg heap f1 (max f1 f2) (le_max_left _ _) _ _ _ _ hx
      have hrest' := normArr_mono_le cfg heap f2 (max f1 f2) (le_max_right _ _) _ _ _ _ _ hrest
      simp only [normArr_cons_step, hx', hrest']
  have hFlds : ∀ fields path seen, seenInv heap seen → unseenCount heap seen ≤ n →
      (∀ kv ∈ fields, childPath path kv.1 ≠ "") →
      ∃ fuel fs s', normFields cfg heap fuel seen path fields = some (fs, s') ∧
        seenInv heap s' ∧ (∀ x ∈ seen, x ∈ s') ∧
        unseenCount heap s' ≤ unseenCount heap seen := by
    intro fields
    induction fields with
    | nil =>
      intro path seen hinv hcnt _
      exact ⟨1, .nil, seen, rfl, hinv, fun x hx => hx, le_refl _⟩
    | cons kv rest ihrest =>
      obtain ⟨k, v⟩ := kv
      intro path seen hinv hcnt hk
      have hcp : childPath path k ≠ "" := hk (k, v) (List.mem_cons_self _ _)
      have hkrest : ∀ kv ∈ rest, childPath path kv.1 ≠ "" :=
        fun kv hkv => hk kv (List.mem_cons_of_mem _ hkv)
      by_cases hig : shouldIgnoreH cfg k (childPath path k) = true
      · obtain ⟨f, fs, s', hrest, hinv', hsub', hcnt'⟩ :=
          ihrest path seen hinv hcnt hkrest
        refine ⟨f + 1, fs, s', ?_, hinv', hsub', hcnt'⟩
        rw [normFields_cons_step, if_pos hig]
        exact hrest
      · cases hnf : normalizeFieldH cfg k v (childPath path k) with
        | some rep =>
          obtain ⟨f, fs, s', hrest, hinv', hsub', hcnt'⟩ :=
            ihrest path seen hinv hcnt hkrest
          refine ⟨f + 1, .cons k rep fs, s', ?_, hinv', hsub', hcnt'⟩
          rw [normFields_cons_step, if_neg hig]
          simp only [hnf, hrest]
        | none =>
          obtain ⟨f1, t, s1, hx, hinv1, hsub1, hcnt1⟩ :=
            hV seen hinv hcnt (childPath path k) v hcp
          obtain ⟨f2, fs, s2, hrest, hinv2, hsub2, hcnt2⟩ :=
            ihrest path s1 hinv1 (le_trans hcnt1 hcnt) hkrest
          refine ⟨max f1 f2 + 1, .cons k t fs, s2, ?_, hinv2,
            fun x' hx' => hsub2 x' (hsub1 x' hx'), le_trans hcnt2 hcnt1⟩
          have hx' := normV_mono_le cfg heap f1 (max f1 f2) (le_max_left _ _) _ _ _ _ hx
          have hrest' :=
            normFields_mono_le cfg heap f2 (max f1 f2) (le_max_right _ _) _ _ _ _ hrest
          rw [normFields_cons_step, if_neg hig]
          simp only [hnf, hx', hrest']
  exact ⟨hV, fun seen hinv hcnt path i items => hArr items path i seen hinv hcnt,
    fun seen hinv hcnt path fields hks => hFlds fields path seen hinv hcnt hks⟩

/-- C7 (amended): (1) for every object graph — cyclic ones included — whose
top-level object has no empty-string member key, `normalize` terminates:
some fuel completes the traversal and more fuel does not change the result
(without that proviso termination FAILS: a top-level member with key `""`
recurses at path `""`, which resets the seen set, as the counterexample
shows); (2) below the top level every reference encountered a second time
in the traversal is replaced by the `[Circular]` marker; (3) a top-level
(`path = ""`) call resets the seen set first, so its result never depends
on state left by earlier normalize calls on the same instance. -/
theorem c7_amended_cycle_handling (cfg : HCfg) (heap : List HObj) :
    (∀ (state : List Nat) (v : HVal), topKeysOk heap v = true →
      ∃ fuel, (normV cfg heap fuel state "" v).isSome ∧
        ∀ fuel', fuel ≤ fuel' →
          normV cfg heap fuel' state "" v = normV cfg heap fuel state "" v)
    ∧ (∀ (fuel : Nat) (seen : List Nat) (path : String) (a : Nat),
        path ≠ "" → a ∈ seen →
        normV cfg heap (fuel + 1) seen path (.ref a) = some (.str "[Circular]", seen))
    ∧ (∀ (fuel : Nat) (s1 s2 : List Nat) (v : HVal),
        normV cfg heap fuel s1 "" v = normV cfg heap fuel s2 "" v) := by
  refine ⟨?_,
    fun fuel seen path a hp hm => normV_circular cfg heap fuel seen path a hp hm,
    fun fuel s1 s2 v => normV_reset cfg heap fuel s1 s2 v⟩
  intro state v htop
  suffices hs : ∃ fuel r, normV cfg heap fuel state "" v = some r by
    obtain ⟨fuel, r, heq⟩ := hs
    refine ⟨fuel, by rw [heq]; rfl, ?_⟩
    intro fuel' hle
    rw [normV_mono_le cfg heap fuel fuel' hle _ _ _ _ heq, heq]
  cases v with
  | null => exact ⟨1, (.null, []), rfl⟩
  | bool b => exact ⟨1, (.bool b, []), rfl⟩
  | num m => exact ⟨1, (.num m, []), rfl⟩
  | str s => exact ⟨1, (.str s, []), rfl⟩
  | ref a =>
    cases hg : heap[a]? with
    | none =>
      refine ⟨0 + 1, (.null, []), ?_⟩
      have hstep : normV cfg heap (0 + 1) state "" (.ref a) =
          (match heap[a]? with
           | none => some (.null, ([] : List Nat))
           | some o => normO cfg heap 0 [a] "" o) := rfl
      rw [hstep, hg]
    | some o =>
      have htop2 : (match heap[a]? with
          | some (HObj.obj fields) => fields.all (fun kv => !(kv.1 = ""))
          | _ => true) = true := htop
      rw [hg] at htop2
      have ha : a < heap.length := by
        by_contra hh
        rw [List.getElem?_eq_none (Nat.le_of_not_lt hh)] at hg
        exact Option.noConfusion hg
      have hinv' : seenInv heap [a] := by
        refine ⟨List.nodup_singleton a, ?_⟩
        intro x hx
        rcases List.mem_singleton.1 hx with rfl
        exact ha
      obtain ⟨_, exA, exF⟩ := exNorm cfg heap (unseenCount heap [a])
      cases o with
      | arr items =>
        obtain ⟨f, ts, s', harr, _, _, _⟩ :=
          exA [a] hinv' (le_refl _) "" 0 items
        refine ⟨f + 1 + 1, (.arr ts, s'), ?_⟩
        have hstep : normV cfg heap (f + 1 + 1) state "" (.ref a) =
            (match heap[a]? with
             | none => some (.null, ([] : List Nat))
             | some o => normO cfg heap (f + 1) [a] "" o) := rfl
        rw [hstep, hg]
        simp only [normO_arr_step, harr]
      | obj fields =>
        have htop' : fields.all (fun kv => !(kv.1 = "")) = true := htop2
        have hkeys : ∀ kv ∈ fields, childPath "" kv.1 ≠ "" := by
          intro kv hkv
          have hne := List.all_eq_true.1 htop' kv hkv
          simp only [Bool.not_eq_eq_eq_not, Bool.not_true, decide_eq_false_iff_not] at hne
          unfold childPath
          rw [if_pos rfl]
          exact hne
        obtain ⟨f, fs, s', hfld, _, _, _⟩ :=
          exF [a] hinv' (le_refl _) "" fields hkeys
        refine ⟨f + 1 + 1, (.obj fs, s'), ?_⟩
        have hstep : normV cfg heap (f + 1 + 1) state "" (.ref a) =
            (match heap[a]? with
             | none => some (.null, ([] : List Nat))
             | some o => normO cfg heap (f + 1) [a] "" o) := rfl
        rw [hstep, hg]
        simp only [normO_obj_step, hfld]

/-- C7 witness: on the cyclic one-object heap `a = {self: a}`, a top-level
normalize from any incoming seen state converges, and below the top level a
reference already seen is replaced by the `[Circular]` marker. -/
theorem c7_amended_cycle_handling_witness :
    (∃ fuel, (normV defaultHCfg selfHeap fuel [3] "" (.ref 0)).isSome ∧
      ∀ fuel', fuel ≤ fuel' →
        normV defaultHCfg selfHeap fuel' [3] "" (.ref 0) =
          normV defaultHCfg selfHeap fuel [3] "" (.ref 0))
    ∧ normV defaultHCfg selfHeap (5 + 1) [0] "x" (.ref 0) =
        some (.str "[Circular]", [0]) :=
  ⟨(c7_amended_cycle_handling defaultHCfg selfHeap).1 [3] (.ref 0) (by decide),
    (c7_amended_cycle_handling defaultHCfg selfHeap).2.1 5 [0] "x" 0 (by decide)
      (by decide)⟩

/-! ## Claim C9 — idempotence of normalize, shared references included

Under the default configuration, the output `normalize` builds is a fresh
unshared tree: every object and array in the result is newly constructed
(`result = {}`, `obj.map`), and every substituted value is a string
sentinel (the default rules have constant string replacements, the
circular marker is a string, and there are no custom normalizers). A
second `normalize` call on that output is therefore exactly the tree-model
`normalizeT`. Idempotence on an arbitrary object graph — shared acyclic
references included, where the first pass emits `[Circular]` at each
re-encountered reference — thus reduces to: the value produced by the
heap-model traversal is a fixed point of `normalizeT`. -/

/-- Under the default configuration, the tree-model and heap-model
`normalizeField` agree (both reduce to the first matching default rule;
there are no custom normalizers, so neither inspects the value). -/
theorem normalizeField_default_bridge (k p : String) (v : HVal) (w : JTree) :
    normalizeFieldT defaultNormalizer k w p = normalizeFieldH defaultHCfg k v p := rfl

/-- The default tree configuration ignores no field. -/
theorem shouldIgnoreT_default (k p : String) :
    shouldIgnoreField defaultNormalizer k p = false := rfl

/-- The default heap configuration ignores no field. -/
theorem shouldIgnoreH_default (k p : String) :
    shouldIgnoreH defaultHCfg k p = false := rfl

/-- Every value produced by the heap-model traversal under the default
configuration is a fixed point of the tree-model normalize at the same
path (all four mutual functions at once, by induction on fuel). -/
theorem normV_default_fixed (heap : List HObj) :
    ∀ fuel : Nat,
      (∀ seen path v t s', normV defaultHCfg heap fuel seen path v = some (t, s') →
        normalizeT defaultNormalizer path t = t)
      ∧ (∀ seen path o t s', normO defaultHCfg heap fuel seen path o = some (t, s') →
        normalizeT defaultNormalizer path t = t)
      ∧ (∀ seen path i items ts s',
          normArr defaultHCfg heap fuel seen path i items = some (ts, s') →
        normArrT defaultNormalizer path i ts = ts)
      ∧ (∀ seen path fields fs s',
          normFields defaultHCfg heap fuel seen path fields = some (fs, s') →
        normFieldsT defaultNormalizer path fs = fs) := by
  intro fuel
  induction fuel with
  | zero =>
    exact ⟨fun _ _ _ _ _ h => Option.noConfusion h, fun _ _ _ _ _ h => Option.noConfusion h,
      fun _ _ _ _ _ _ h => Option.noConfusion h, fun _ _ _ _ _ h => Option.noConfusion h⟩
  | succ f ih =>
    obtain ⟨ihV, ihO, ihA, ihF⟩ := ih
    refine ⟨?_, ?_, ?_, ?_⟩
    · intro seen path v t s' h
      cases v with
      | null =>
        rw [normV_null_step] at h
        simp only [Option.some.injEq, Prod.mk.injEq] at h
        obtain ⟨ht, _⟩ := h
        subst ht
        rfl
      | bool b =>
        rw [normV_bool_step] at h
        simp only [Option.some.injEq, Prod.mk.injEq] at h
        obtain ⟨ht, _⟩ := h
        subst ht
        rfl
      | num m =>
        rw [normV_num_step] at h
        simp only [Option.some.injEq, Prod.mk.injEq] at h
        obtain ⟨ht, _⟩ := h
        subst ht
        rfl
      | str s =>
        rw [normV_str_step] at h
        simp only [Option.some.injEq, Prod.mk.injEq] at h
        obtain ⟨ht, _⟩ := h
        subst ht
        rfl
      | ref a =>
        rw [normV_ref_step] at h
        by_cases hm : a ∈ (if path = "" then ([] : List Nat) else seen)
        · rw [if_pos hm] at h
          simp only [Option.some.injEq, Prod.mk.injEq] at h
          obtain ⟨ht, _⟩ := h
          subst ht
          rfl
        · rw [if_neg hm] at h
          cases hg : heap[a]? with
          | none =>
            rw [hg] at h
            simp only [Option.some.injEq, Prod.mk.injEq] at h
            obtain ⟨ht, _⟩ := h
            subst ht
            rfl
          | some o =>
            rw [hg] at h
            exact ihO _ _ _ _ _ h
    · intro seen path o t s' h
      cases o with
      | arr items =>
        rw [normO_arr_step] at h
        cases ha : normArr defaultHCfg heap f seen path 0 items with
        | none => rw [ha] at h; exact Option.noConfusion h
        | some p =>
          obtain ⟨ts, s2⟩ := p
          rw [ha] at h
          simp only [Option.some.injEq, Prod.mk.injEq] at h
          obtain ⟨ht, _⟩ := h
          subst ht
          show JTree.arr (normArrT defaultNormalizer path 0 ts) = JTree.arr ts
          rw [ihA _ _ _ _ _ _ ha]
      | obj fields =>
        rw [normO_obj_step] at h
        cases hf : normFields defaultHCfg heap f seen path fields with
        | none => rw [hf] at h; exact Option.noConfusion h
        | some p =>
          obtain ⟨fs, s2⟩ := p
          rw [hf] at h
          simp only [Option.some.injEq, Prod.mk.injEq] at h
          obtain ⟨ht, _⟩ := h
          subst ht
          show JTree.obj (normFieldsT defaultNormalizer path fs) = JTree.obj fs
          rw [ihF _ _ _ _ _ hf]
    · intro seen path i items ts s' h
      cases items with
      | nil =>
        have h2 : (some (JTreeList.nil, seen) : Option (JTreeList × List Nat)) =
            some (ts, s') := h
        simp only [Option.some.injEq, Prod.mk.injEq] at h2
        obtain ⟨ht, _⟩ := h2
        subst ht
        rfl
      | cons x rest =>
        rw [normArr_cons_step] at h
        cases hx : normV defaultHCfg heap f seen (itemPath path i) x with
        | none => rw [hx] at h; exact Option.noConfusion h
        | some p =>
          obtain ⟨t1, s1⟩ := p
          rw [hx] at h
          have h2 : (match normArr defaultHCfg heap f s1 path (i + 1) rest with
              | none => none
              | some (ts2, s2) => some (JTreeList.cons t1 ts2, s2)) = some (ts, s') := h
          cases hr : normArr defaultHCfg heap f s1 path (i + 1) rest with
          | none => rw [hr] at h2; exact Option.noConfusion h2
          | some q =>
            obtain ⟨ts2, s2⟩ := q
            rw [hr] at h2
            simp only [Option.some.injEq, Prod.mk.injEq] at h2
            obtain ⟨ht, _⟩ := h2
            subst ht
            rw [normArrT_cons, ihV _ _ _ _ _ hx, ihA _ _ _ _ _ _ hr]
    · intro seen path fields fs s' h
      cases fields with
      | nil =>
        have h2 : (some (JFieldList.nil, seen) : Option (JFieldList × List Nat)) =
            some (fs, s') := h
        simp only [Option.some.injEq, Prod.mk.injEq] at h2
        obtain ⟨ht, _⟩ := h2
        subst ht
        rfl
      | cons kv rest =>
        obtain ⟨k, v⟩ := kv
        rw [normFields_cons_step] at h
        rw [shouldIgnoreH_default k (childPath path k)] at h
        simp only [Bool.false_eq_true, if_false] at h
        cases hnf : normalizeFieldH defaultHCfg k v (childPath path k) with
        | some rep =>
          rw [hnf] at h
          cases hr : normFields defaultHCfg heap f seen path rest with
          | none => rw [hr] at h; exact Option.noConfusion h
          | some q =>
            obtain ⟨fs2, s2⟩ := q
            rw [hr] at h
            simp only [Option.some.injEq, Prod.mk.injEq] at h
            obtain ⟨ht, _⟩ := h
            subst ht
            rw [normFieldsT_cons, shouldIgnoreT_default k (childPath path k)]
            simp only [Bool.false_eq_true, if_false]
            have hbrid : normalizeFieldT defaultNormalizer k rep (childPath path k) =
                some rep := by
              rw [normalizeField_default_bridge k (childPath path k) v rep]
              exact hnf
            simp only [hbrid]
            rw [ihF _ _ _ _ _ hr]
        | none =>
          rw [hnf] at h
          cases hx : normV defaultHCfg heap f seen (childPath path k) v with
          | none => rw [hx] at h; exact Option.noConfusion h
          | some p =>
            obtain ⟨t1, s1⟩ := p
            rw [hx] at h
            have h2 : (match normFields defaultHCfg heap f s1 path rest with
                | none => none
                | some (fs2, s2) => some (JFieldList.cons k t1 fs2, s2)) = some (fs, s') := h
            cases hr : normFields defaultHCfg heap f s1 path rest with
            | none => rw [hr] at h2; exact Option.noConfusion h2
            | some q =>
              obtain ⟨fs2, s2⟩ := q
              rw [hr] at h2
              simp only [Option.some.injEq, Prod.mk.injEq] at h2
              obtain ⟨ht, _⟩ := h2
              subst ht
              rw [normFieldsT_cons, shouldIgnoreT_default k (childPath path k)]
              simp only [Bool.false_eq_true, if_false]
              have hbrid : normalizeFieldT defaultNormalizer k t1 (childPath path k) =
                  none := by
                rw [normalizeField_default_bridge k (childPath path k) v t1]
                exact hnf
              simp only [hbrid]
              rw [ihV _ _ _ _ _ hx, ihF _ _ _ _ _ hr]

/-- C9: under the default configuration, `normalize` is idempotent on every
acyclic input. (1) On tree-shaped values (no shared references) the literal
double application returns the single application's result. (2) On an
arbitrary object graph — shared acyclic references included, where the
first pass replaces each re-encountered reference by `[Circular]` — the
value the first pass produces is a fresh unshared tree, and it is a fixed
point of normalize, so `normalize(normalize(x)) = normalize(x)` whenever
the first pass completes (which it does on every acyclic input). -/
theorem c9_normalize_idempotent :
    (∀ t : JTree,
      normalizeT defaultNormalizer "" (normalizeT defaultNormalizer "" t) =
        normalizeT defaultNormalizer "" t)
    ∧ (∀ (heap : List HObj) (fuel : Nat) (state : List Nat) (v : HVal)
        (t : JTree) (s' : List Nat),
        normV defaultHCfg heap fuel state "" v = some (t, s') →
        normalizeT defaultNormalizer "" t = t) :=
  ⟨fun t => normalizeT_idem defaultNormalizer rfl "" t,
    fun heap fuel state v t s' h => (normV_default_fixed heap fuel).1 state "" v t s' h⟩

/-- C9 witness: on the acyclic heap with a shared reference
`o = {x: 5}; v = {a: o, b: o}`, the first pass yields
`{a: {x: 5}, b: "[Circular]"}` (the shared reference is re-encountered),
and normalizing that output returns it unchanged. -/
theorem c9_normalize_idempotent_witness :
    normalizeT defaultNormalizer ""
        (.obj (.cons "a" (.obj (.cons "x" (.num 5) .nil))
          (.cons "b" (.str "[Circular]") .nil))) =
      .obj (.cons "a" (.obj (.cons "x" (.num 5) .nil))
        (.cons "b" (.str "[Circular]") .nil)) :=
  c9_normalize_idempotent.2 sharedHeap 10 [4] (.ref 0)
    (.obj (.cons "a" (.obj (.cons "x" (.num 5) .nil))
      (.cons "b" (.str "[Circular]") .nil))) [1, 0] (by decide)

end AgentSnapshotSpec
